import Mathlib

/-!
Verification development for the tiled NLCD land-cover driver of the
Spectrum-Access-System harness, together with the harness utility helpers
of src/harness/util.py.

The driver module itself (reference_models/geo/nlcd.py) is not part of the
source tree available here: only its test file nlcd_test.py is. The driver
definitions below are therefore modelled from the specification (spec.md,
sections 3, 4 and 8), and each such definition says so in its doc comment.
The utility helpers (getRandomLatLongInPolygon, makePpaAndPalRecordsConsistent)
are embedded directly from src/harness/util.py.
-/

namespace SAS

/-! ## Land-cover classification (spec section 4.4, scenarios of section 8) -/

/-- The three protection categories returned by the classifier. The Python
code uses the strings URBAN, SUBURBAN and RURAL. -/
inductive RegionCategory where
  | URBAN
  | SUBURBAN
  | RURAL
deriving DecidableEq, Repr, Fintype

/-- Protection stringency used by the tie-break rule of section 4.5:
most-restrictive (URBAN) ranks highest, least-restrictive (RURAL) lowest. -/
def stringency : RegionCategory → ℕ
  | .URBAN => 2
  | .SUBURBAN => 1
  | .RURAL => 0

/-- Modelled from the spec: section 4.4 together with the concrete scenarios
of section 8. Highest-intensity developed code 24 maps to URBAN, the
mid-intensity developed code 22 to SUBURBAN, and every other code (open
space 21, water 11, the no-data sentinel 0, ...) to the default RURAL.
A pure total function of the numeric code, hence deterministic. -/
def GetRegionType (code : ℕ) : RegionCategory :=
  if code = 24 then .URBAN
  else if code = 22 then .SUBURBAN
  else .RURAL

/-! ## Tiles and tile addressing (spec section 3) -/

/-- Tile identifier: the north-edge integer latitude and the west-edge
integer longitude expressed as degrees-west. -/
abbrev TileId := ℤ × ℤ

/-- Executable floor of a rational number (numerator integer-divided by
denominator); agrees with the mathematical floor, see ratFloor_eq. -/
def ratFloor (q : ℚ) : ℤ := q.num / q.den

/-- Executable ceiling of a rational number. -/
def ratCeil (q : ℚ) : ℤ := -ratFloor (-q)

theorem ratFloor_eq (q : ℚ) : ratFloor q = ⌊q⌋ := (Rat.floor_def).symm

theorem ratCeil_eq (q : ℚ) : ratCeil q = ⌈q⌉ := by
  rw [ratCeil, ratFloor_eq, Int.floor_neg, neg_neg]

/-- Modelled from the spec: TileId is derived deterministically from a
coordinate as the ceiling of the latitude (north edge) and the ceiling of
the absolute longitude (degrees-west, western-hemisphere convention). -/
def tileKey (lat lon : ℚ) : TileId :=
  (ratCeil lat, ratCeil |lon|)

/-- Modelled from the spec: an immutable 2-D grid of integer land-cover
codes together with the georeferencing needed to map a coordinate to a
row and column (origin corner and angular resolution per sample). The
binary on-disk encoding is an external collaborator; the grid is abstracted
as a total function of row and column. -/
structure Tile where
  originLat : ℚ
  originLon : ℚ
  res : ℚ
  rows : ℕ
  cols : ℕ
  grid : ℕ → ℕ → ℕ

/-- Modelled from the spec: compute the pixel row and column from the
coordinate offset from the tile origin scaled by the angular resolution,
clamp indices to the valid range defensively, and sample the grid. -/
def sample (t : Tile) (lat lon : ℚ) : ℕ :=
  let row := Int.toNat (ratFloor ((t.originLat - lat) / t.res))
  let col := Int.toNat (ratFloor ((lon - t.originLon) / t.res))
  t.grid (min row (t.rows - 1)) (min col (t.cols - 1))

/-! ## Tile cache and driver state (spec sections 4.1 to 4.3) -/

/-- Lookup in an association list, mirroring a Python dict read. -/
def alookup {α β : Type} [DecidableEq α] : List (α × β) → α → Option β
  | [], _ => none
  | p :: rest, k => if k = p.1 then some p.2 else alookup rest k

/-- Modelled from the spec: driver state. The backing store (TileStore of
section 4.1, an external collaborator reading one-degree tiles from disk)
is abstracted as a total function from TileId to an optional Tile, where
none is the NotFound outcome. tile_cache is the mapping from TileId to
loaded Tile and tile_lru the recency ordering of the same keys, least
recently used first. -/
structure NlcdDriver where
  store : TileId → Option Tile
  cache_size : ℕ
  tile_cache : List (TileId × Tile)
  tile_lru : List TileId

/-- A freshly constructed driver: empty cache, given store and capacity. -/
def NlcdDriver.init (store : TileId → Option Tile) (cap : ℕ) : NlcdDriver :=
  ⟨store, cap, [], []⟩

/-- Modelled from the spec: evict the least-recently-used entry (the head
of the recency list) until the mapping size is at most the capacity. The
fuel argument only bounds the recursion; one unit per possible eviction
suffices. -/
def evictFuel (cap : ℕ) : ℕ → List (TileId × Tile) → List TileId →
    List (TileId × Tile) × List TileId
  | 0, cache, lru => (cache, lru)
  | fuel + 1, cache, lru =>
    if cache.length ≤ cap then (cache, lru)
    else
      match lru with
      | [] => (cache, lru)
      | k :: rest => evictFuel cap fuel (cache.filter (fun p => p.1 ≠ k)) rest

/-- Modelled from the spec, section 4.2: on a hit, move the key to the
most-recently-used position and return the tile without consulting the
store; on a miss, load from the store; NotFound is propagated without
caching; a found tile is inserted at most-recently-used position and the
least-recently-used entries are evicted until the size is within
cache_size. -/
def GetOrLoad (d : NlcdDriver) (k : TileId) : Option Tile × NlcdDriver :=
  match alookup d.tile_cache k with
  | some t => (some t, { d with tile_lru := d.tile_lru.erase k ++ [k] })
  | none =>
    match d.store k with
    | none => (none, d)
    | some t =>
      let cache := (k, t) :: d.tile_cache
      let lru := d.tile_lru ++ [k]
      let r := evictFuel d.cache_size lru.length cache lru
      (some t, { d with tile_cache := r.1, tile_lru := r.2 })

/-- Modelled from the spec, section 4.3: the scalar form of
GetLandCoverCodes. Compute the tile key, request the tile through the
cache; a NotFound tile yields the sentinel code 0, otherwise the pixel is
sampled from the tile. Returns the code and the updated driver state. -/
def GetLandCoverCodesScalar (d : NlcdDriver) (lat lon : ℚ) : ℕ × NlcdDriver :=
  match GetOrLoad d (tileKey lat lon) with
  | (none, d1) => (0, d1)
  | (some t, d1) => (sample t lat lon, d1)

/-- Sequential scalar invocations: one GetLandCoverCodesScalar call per
coordinate, results collected in order. This is the comprehension
[GetLandCoverCodes(lat_i, lon_i) for each i] of the test suite. -/
def runScalars (d : NlcdDriver) : List (ℚ × ℚ) → List ℕ × NlcdDriver
  | [] => ([], d)
  | p :: ps =>
    let r1 := GetLandCoverCodesScalar d p.1 p.2
    let r2 := runScalars r1.2 ps
    (r1.1 :: r2.1, r2.2)

/-- Load every key of the given list through the cache once, in order,
recording each outcome. -/
def loadAll (d : NlcdDriver) : List TileId → List (TileId × Option Tile) × NlcdDriver
  | [] => ([], d)
  | k :: ks =>
    let r1 := GetOrLoad d k
    let r2 := loadAll r1.2 ks
    ((k, r1.1) :: r2.1, r2.2)

/-- Modelled from the spec, section 4.3: the batched form of
GetLandCoverCodes. Each distinct tile of the batch is requested through
the cache once (reusing already-cached tiles across iterations), then
every coordinate is sampled from the outcome recorded for its tile. -/
def GetLandCoverCodes (d : NlcdDriver) (pts : List (ℚ × ℚ)) : List ℕ × NlcdDriver :=
  let keys := (pts.map (fun p => tileKey p.1 p.2)).dedup
  let r := loadAll d keys
  (pts.map (fun p =>
      match alookup r.1 (tileKey p.1 p.2) with
      | some (some t) => sample t p.1 p.2
      | _ => 0), r.2)

/-- The per-coordinate contract of section 4.3, stated directly on the
backing store with no cache: a coordinate outside every available tile
yields the sentinel 0, otherwise its code is sampled from the covering
tile. -/
def pureCode (store : TileId → Option Tile) (lat lon : ℚ) : ℕ :=
  match store (tileKey lat lon) with
  | none => 0
  | some t => sample t lat lon

/-! ## Region vote (spec section 4.5) -/

/-- Modelled from the spec: majority vote over a list of categories; the
category with the most occurrences wins and ties are broken in favour of
the more protection-stringent category. -/
def voteCategories (cats : List RegionCategory) : RegionCategory :=
  let cu := cats.count RegionCategory.URBAN
  let cs := cats.count RegionCategory.SUBURBAN
  let cr := cats.count RegionCategory.RURAL
  if cs ≤ cu ∧ cr ≤ cu then .URBAN
  else if cr ≤ cs then .SUBURBAN
  else .RURAL

/-- Modelled from the spec: RegionNlcdVote obtains each point code through
section 4.3, derives each category through section 4.4, and aggregates by
majority vote. An empty point set is rejected (section 7, InvalidInput),
modelled by the none result. -/
def RegionNlcdVote (d : NlcdDriver) (points : List (ℚ × ℚ)) :
    Option RegionCategory × NlcdDriver :=
  match points with
  | [] => (none, d)
  | _ :: _ =>
    let r := runScalars d points
    (some (voteCategories (r.1.map GetRegionType)), r.2)

/-- The per-point categories a point list resolves to, starting from a
given driver state. -/
def perPointCategories (d : NlcdDriver) (pts : List (ℚ × ℚ)) : List RegionCategory :=
  (runScalars d pts).1.map GetRegionType

/-! ## Cache invariants (spec section 3, TileCache state) -/

/-- Every cached tile is the tile the backing store returns for its key.
Holds for a fresh driver and is preserved by every operation. -/
def CacheFaithful (d : NlcdDriver) : Prop :=
  ∀ k t, (k, t) ∈ d.tile_cache → d.store k = some t

/-- The pair invariant of the TileCache state: the recency list has no
duplicates, the mapping has no duplicate keys, and both hold the same set
of keys. -/
def PairWF (cache : List (TileId × Tile)) (lru : List TileId) : Prop :=
  lru.Nodup ∧ (cache.map Prod.fst).Nodup ∧
    ∀ x, x ∈ lru ↔ x ∈ cache.map Prod.fst

/-- The key-set invariant of the driver: the set of keys in the tile
mapping equals the set of keys in the recency ordering. -/
def CacheKeysMatch (d : NlcdDriver) : Prop :=
  PairWF d.tile_cache d.tile_lru

/-- The distinct tile keys touched by a point list. -/
def distinctTileKeys (pts : List (ℚ × ℚ)) : List TileId :=
  (pts.map (fun p => tileKey p.1 p.2)).dedup

/-! ## Helper lemmas about the cache machinery -/

theorem alookup_mem {α β : Type} [DecidableEq α] {l : List (α × β)} {k : α} {v : β}
    (h : alookup l k = some v) : (k, v) ∈ l := by
  induction l with
  | nil => simp [alookup] at h
  | cons p rest ih =>
    rw [alookup] at h
    split at h
    · next heq =>
      injection h with h2
      subst heq; subst h2
      exact List.mem_cons_self _ _
    · exact List.mem_cons_of_mem _ (ih h)

theorem alookup_eq_none {α β : Type} [DecidableEq α] {l : List (α × β)} {k : α}
    (h : alookup l k = none) : k ∉ l.map Prod.fst := by
  induction l with
  | nil => simp
  | cons p rest ih =>
    rw [alookup] at h
    split at h
    · exact absurd h (by simp)
    · next hne =>
      simp only [List.map_cons, List.mem_cons]
      rintro (h1 | h1)
      · exact hne h1
      · exact ih h h1

theorem evictFuel_subset (cap : ℕ) :
    ∀ (fuel : ℕ) (cache : List (TileId × Tile)) (lru : List TileId),
      ∀ e ∈ (evictFuel cap fuel cache lru).1, e ∈ cache := by
  intro fuel
  induction fuel with
  | zero => intro cache lru e he; exact he
  | succ n ih =>
    intro cache lru e he
    simp only [evictFuel] at he
    split at he
    · exact he
    · split at he
      · exact he
      · exact List.mem_of_mem_filter (ih _ _ _ he)

theorem GetOrLoad_store (d : NlcdDriver) (k : TileId) :
    (GetOrLoad d k).2.store = d.store := by
  rw [GetOrLoad]
  split
  · rfl
  · split
    · rfl
    · rfl

theorem GetOrLoad_cache_size (d : NlcdDriver) (k : TileId) :
    (GetOrLoad d k).2.cache_size = d.cache_size := by
  rw [GetOrLoad]
  split
  · rfl
  · split
    · rfl
    · rfl

theorem GetOrLoad_fst (d : NlcdDriver) (k : TileId) (hf : CacheFaithful d) :
    (GetOrLoad d k).1 = d.store k := by
  rw [GetOrLoad]
  split
  · next t heq => exact (hf k t (alookup_mem heq)).symm
  · split
    · next heq => simpa using heq.symm
    · next t heq => simpa using heq.symm

theorem GetOrLoad_faithful (d : NlcdDriver) (k : TileId) (hf : CacheFaithful d) :
    CacheFaithful (GetOrLoad d k).2 := by
  rw [GetOrLoad]
  split
  · exact hf
  · split
    · exact hf
    · next t heq =>
      intro k1 t1 hm
      have hm1 := evictFuel_subset _ _ _ _ _ hm
      rcases List.mem_cons.mp hm1 with h1 | h1
      · obtain ⟨rfl, rfl⟩ : k1 = k ∧ t1 = t := by
          simpa using h1
        exact heq
      · exact hf k1 t1 h1

theorem scalar_snd (d : NlcdDriver) (lat lon : ℚ) :
    (GetLandCoverCodesScalar d lat lon).2 = (GetOrLoad d (tileKey lat lon)).2 := by
  rw [GetLandCoverCodesScalar]
  split
  · next heq => rw [heq]
  · next heq => rw [heq]

theorem scalar_fst (d : NlcdDriver) (lat lon : ℚ) (hf : CacheFaithful d) :
    (GetLandCoverCodesScalar d lat lon).1 = pureCode d.store lat lon := by
  rw [GetLandCoverCodesScalar, pureCode]
  have h := GetOrLoad_fst d (tileKey lat lon) hf
  split
  · next heq => rw [heq] at h; rw [← h]
  · next t heq => rw [heq] at h; rw [← h]

theorem scalar_store (d : NlcdDriver) (lat lon : ℚ) :
    (GetLandCoverCodesScalar d lat lon).2.store = d.store := by
  rw [scalar_snd]; exact GetOrLoad_store _ _

theorem scalar_faithful (d : NlcdDriver) (lat lon : ℚ) (hf : CacheFaithful d) :
    CacheFaithful (GetLandCoverCodesScalar d lat lon).2 := by
  rw [scalar_snd]; exact GetOrLoad_faithful _ _ hf

/-- Under the faithfulness invariant, a sequence of scalar lookups returns
exactly the pure per-coordinate codes, whatever the cache contents. -/
theorem runScalars_fst (pts : List (ℚ × ℚ)) :
    ∀ (d : NlcdDriver), CacheFaithful d →
      (runScalars d pts).1 = pts.map (fun p => pureCode d.store p.1 p.2) := by
  induction pts with
  | nil => intro d _; rfl
  | cons p ps ih =>
    intro d hf
    rw [runScalars]
    simp only [List.map_cons]
    rw [scalar_fst d p.1 p.2 hf, ih _ (scalar_faithful d p.1 p.2 hf), scalar_store]

theorem runScalars_store (pts : List (ℚ × ℚ)) :
    ∀ d : NlcdDriver, (runScalars d pts).2.store = d.store := by
  induction pts with
  | nil => intro d; rfl
  | cons p ps ih => intro d; rw [runScalars]; simp only; rw [ih, scalar_store]

theorem runScalars_faithful (pts : List (ℚ × ℚ)) :
    ∀ d : NlcdDriver, CacheFaithful d → CacheFaithful (runScalars d pts).2 := by
  induction pts with
  | nil => intro d hf; exact hf
  | cons p ps ih => intro d hf; rw [runScalars]; exact ih _ (scalar_faithful d p.1 p.2 hf)

/-! ## Vote lemmas -/

theorem vote_singleton (c : RegionCategory) : voteCategories [c] = c := by
  cases c <;> rfl

/-- The voted category always realises the maximal occurrence count. -/
theorem vote_count_max (cats : List RegionCategory) (c : RegionCategory) :
    cats.count c ≤ cats.count (voteCategories cats) := by
  rw [voteCategories]
  split
  · next h =>
    cases c
    · exact le_refl _
    · exact h.1
    · exact h.2
  · split
    · next h h2 =>
      cases c
      · push_neg at h; omega
      · exact le_refl _
      · exact h2
    · next h h2 =>
      cases c
      · push_neg at h; omega
      · omega
      · exact le_refl _

/-- Among the categories tied for the plurality, the voted category is the
most protection-stringent one. -/
theorem vote_stringency_max (cats : List RegionCategory) (c : RegionCategory)
    (hmax : ∀ c', cats.count c' ≤ cats.count c) :
    stringency c ≤ stringency (voteCategories cats) := by
  rw [voteCategories]
  split
  · next h => cases c <;> decide
  · split
    · next h h2 =>
      cases c
      · exact absurd ⟨hmax .SUBURBAN, hmax .RURAL⟩ h
      · decide
      · decide
    · next h h2 =>
      cases c
      · exact absurd ⟨hmax .SUBURBAN, hmax .RURAL⟩ h
      · exact absurd (hmax .RURAL) h2
      · decide

/-- Unfolding of RegionNlcdVote on a non-empty point list. -/
theorem RegionNlcdVote_ne_nil (d : NlcdDriver) {pts : List (ℚ × ℚ)} (h : pts ≠ []) :
    (RegionNlcdVote d pts).1 = some (voteCategories (perPointCategories d pts)) := by
  obtain ⟨p, ps, rfl⟩ := List.exists_cons_of_ne_nil h
  rfl

/-- A fresh driver trivially satisfies the faithfulness invariant. -/
theorem cacheFaithful_init (store : TileId → Option Tile) (cap : ℕ) :
    CacheFaithful (NlcdDriver.init store cap) :=
  fun _ t h => absurd h (List.not_mem_nil (_, t))

theorem loadAll_store (ks : List TileId) :
    ∀ d : NlcdDriver, (loadAll d ks).2.store = d.store := by
  induction ks with
  | nil => intro d; rfl
  | cons k ks ih => intro d; rw [loadAll]; simp only; rw [ih, GetOrLoad_store]

theorem loadAll_faithful (ks : List TileId) :
    ∀ d : NlcdDriver, CacheFaithful d → CacheFaithful (loadAll d ks).2 := by
  induction ks with
  | nil => intro d hf; exact hf
  | cons k ks ih => intro d hf; rw [loadAll]; exact ih _ (GetOrLoad_faithful d k hf)

/-- Under the faithfulness invariant, loading a key list through the cache
records exactly the store outcome for every key, in order. -/
theorem loadAll_fst (ks : List TileId) :
    ∀ d : NlcdDriver, CacheFaithful d →
      (loadAll d ks).1 = ks.map (fun k => (k, d.store k)) := by
  induction ks with
  | nil => intro d _; rfl
  | cons k ks ih =>
    intro d hf
    rw [loadAll]
    simp only [List.map_cons]
    rw [GetOrLoad_fst d k hf, ih _ (GetOrLoad_faithful d k hf), GetOrLoad_store]

theorem alookup_map_self {β : Type} {ks : List TileId} {f : TileId → β} {k : TileId}
    (h : k ∈ ks) : alookup (ks.map fun x => (x, f x)) k = some (f k) := by
  induction ks with
  | nil => exact absurd h (List.not_mem_nil k)
  | cons a as ih =>
    rw [List.map_cons, alookup]
    split
    · next he => simp only at he; subst he; rfl
    · next he =>
      simp only at he
      exact ih (List.mem_of_ne_of_mem he h)

/-! ## Eviction and cache-size lemmas -/

/-- Two nodup lists with the same members have the same length. -/
theorem pairwf_length {cache : List (TileId × Tile)} {lru : List TileId}
    (h : PairWF cache lru) : lru.length = cache.length := by
  obtain ⟨h1, h2, h3⟩ := h
  have hp : lru.Perm (cache.map Prod.fst) :=
    (List.perm_ext_iff_of_nodup h1 h2).mpr h3
  rw [hp.length_eq, List.length_map]

theorem map_fst_filter_ne (cache : List (TileId × Tile)) (k : TileId) :
    (cache.filter (fun p => p.1 ≠ k)).map Prod.fst =
      (cache.map Prod.fst).filter (fun x => x ≠ k) := by
  rw [List.filter_map]
  rfl

theorem filter_key_ne_length (cache : List (TileId × Tile)) (k : TileId)
    (hnd : (cache.map Prod.fst).Nodup) (hk : k ∈ cache.map Prod.fst) :
    (cache.filter (fun p => p.1 ≠ k)).length + 1 = cache.length := by
  induction cache with
  | nil => exact absurd hk (List.not_mem_nil k)
  | cons p rest ih =>
    rw [List.map_cons, List.nodup_cons] at hnd
    rcases List.mem_cons.mp hk with he | he
    · subst he
      rw [List.filter_cons, if_neg (by simp)]
      have hall : rest.filter (fun q => q.1 ≠ p.1) = rest := by
        rw [List.filter_eq_self]
        intro q hq
        simp only [decide_eq_true_eq]
        intro hqk
        exact hnd.1 (hqk ▸ List.mem_map_of_mem Prod.fst hq)
      rw [hall]
      simp
    · have hpk : ¬p.1 = k := fun h => hnd.1 (h.symm ▸ he)
      rw [List.filter_cons, if_pos (by simp [hpk])]
      simp only [List.length_cons]
      rw [← ih hnd.2 he]

/-- Full specification of the eviction loop: it preserves the pair
invariant, shrinks the mapping to exactly min of its size and the
capacity, and is the identity when the mapping is already within
capacity. -/
theorem evictFuel_spec (cap : ℕ) :
    ∀ (fuel : ℕ) (cache : List (TileId × Tile)) (lru : List TileId),
      PairWF cache lru → cache.length ≤ cap + fuel →
      PairWF (evictFuel cap fuel cache lru).1 (evictFuel cap fuel cache lru).2 ∧
      (evictFuel cap fuel cache lru).1.length = min cache.length cap ∧
      (cache.length ≤ cap → evictFuel cap fuel cache lru = (cache, lru)) := by
  intro fuel
  induction fuel with
  | zero =>
    intro cache lru hwf hfuel
    rw [Nat.add_zero] at hfuel
    refine ⟨hwf, ?_, fun _ => rfl⟩
    show cache.length = min cache.length cap
    rw [min_eq_left hfuel]
  | succ n ih =>
    intro cache lru hwf hfuel
    by_cases hle : cache.length ≤ cap
    · rw [show evictFuel cap (n + 1) cache lru = (cache, lru) by
        rw [evictFuel.eq_def]; simp [hle]]
      exact ⟨hwf, by rw [min_eq_left hle], fun _ => rfl⟩
    · have hlen : lru.length = cache.length := pairwf_length hwf
      cases hlru : lru with
      | nil =>
        exfalso
        rw [hlru] at hlen
        simp only [List.length_nil] at hlen
        exact hle (by omega)
      | cons k rest =>
        subst hlru
        have hstep : evictFuel cap (n + 1) cache (k :: rest) =
            evictFuel cap n (cache.filter (fun p => p.1 ≠ k)) rest := by
          rw [evictFuel.eq_def]
          simp [hle]
        obtain ⟨hnd, hndk, hiff⟩ := hwf
        have hkmem : k ∈ cache.map Prod.fst := (hiff k).mp (List.mem_cons_self k rest)
        have hlen1 : (cache.filter (fun p => p.1 ≠ k)).length + 1 = cache.length :=
          filter_key_ne_length cache k hndk hkmem
        have hknotrest : k ∉ rest := (List.nodup_cons.mp hnd).1
        have hwf1 : PairWF (cache.filter (fun p => p.1 ≠ k)) rest := by
          refine ⟨(List.nodup_cons.mp hnd).2, ?_, ?_⟩
          · rw [map_fst_filter_ne]
            exact hndk.filter _
          · intro x
            rw [map_fst_filter_ne, List.mem_filter]
            constructor
            · intro hx
              have hx1 : x ∈ k :: rest := List.mem_cons_of_mem k hx
              refine ⟨(hiff x).mp hx1, ?_⟩
              simp only [decide_eq_true_eq]
              intro he
              exact hknotrest (he ▸ hx)
            · rintro ⟨hx1, hx2⟩
              simp only [decide_eq_true_eq] at hx2
              rcases List.mem_cons.mp ((hiff x).mpr hx1) with he | he
              · exact absurd he hx2
              · exact he
        have hfuel1 : (cache.filter (fun p => p.1 ≠ k)).length ≤ cap + n := by omega
        obtain ⟨ha, hb, _⟩ := ih _ _ hwf1 hfuel1
        rw [hstep]
        refine ⟨ha, ?_, fun hc => absurd hc hle⟩
        rw [hb]
        omega

theorem scalar_cache_size (d : NlcdDriver) (lat lon : ℚ) :
    (GetLandCoverCodesScalar d lat lon).2.cache_size = d.cache_size := by
  rw [scalar_snd]; exact GetOrLoad_cache_size _ _

theorem runScalars_cache_size (pts : List (ℚ × ℚ)) :
    ∀ d : NlcdDriver, (runScalars d pts).2.cache_size = d.cache_size := by
  induction pts with
  | nil => intro d; rfl
  | cons p ps ih => intro d; rw [runScalars]; simp only; rw [ih, scalar_cache_size]

/-- Induction invariant for the capacity claim: the key sets of mapping
and recency list agree, every cached key has been requested (is in seen),
the mapping size is exactly the minimum of the number of distinct keys
requested so far and the capacity, and as long as the cache is below
capacity every requested key is still resident. -/
def CacheInv (seen : Finset TileId) (d : NlcdDriver) : Prop :=
  CacheKeysMatch d ∧
  (∀ k ∈ d.tile_cache.map Prod.fst, k ∈ seen) ∧
  d.tile_cache.length = min seen.card d.cache_size ∧
  (d.tile_cache.length < d.cache_size → ∀ k ∈ seen, k ∈ d.tile_cache.map Prod.fst)

theorem cacheInv_init (store : TileId → Option Tile) (cap : ℕ) :
    CacheInv ∅ (NlcdDriver.init store cap) := by
  refine ⟨⟨List.nodup_nil, List.nodup_nil, by simp [NlcdDriver.init]⟩, ?_, ?_, ?_⟩
  · intro k hk
    exact absurd hk (List.not_mem_nil k)
  · simp [NlcdDriver.init]
  · intro _ k hk
    exact absurd hk (Finset.not_mem_empty k)

theorem GetOrLoad_hit_state (d : NlcdDriver) (k : TileId) (t0 : Tile)
    (hlk : alookup d.tile_cache k = some t0) :
    (GetOrLoad d k).2 = { d with tile_lru := d.tile_lru.erase k ++ [k] } := by
  rw [GetOrLoad, hlk]

theorem GetOrLoad_miss_state (d : NlcdDriver) (k : TileId) (t : Tile)
    (hlk : alookup d.tile_cache k = none) (hst : d.store k = some t) :
    (GetOrLoad d k).2 = { d with
      tile_cache := (evictFuel d.cache_size (d.tile_lru ++ [k]).length
        ((k, t) :: d.tile_cache) (d.tile_lru ++ [k])).1,
      tile_lru := (evictFuel d.cache_size (d.tile_lru ++ [k]).length
        ((k, t) :: d.tile_cache) (d.tile_lru ++ [k])).2 } := by
  rw [GetOrLoad, hlk, hst]

/-- One cache access with an available tile preserves the invariant,
extending the seen set by the requested key. -/
theorem getOrLoad_inv (d : NlcdDriver) (k : TileId) (t : Tile)
    (hst : d.store k = some t) (seen : Finset TileId)
    (hinv : CacheInv seen d) : CacheInv (insert k seen) (GetOrLoad d k).2 := by
  obtain ⟨⟨hnd, hndk, hiff⟩, hsub, hsize, hfull⟩ := hinv
  cases hlk : alookup d.tile_cache k with
  | some t0 =>
    -- cache hit: mapping unchanged, key moved to most-recently-used
    rw [GetOrLoad_hit_state d k t0 hlk]
    have hkc : k ∈ d.tile_cache.map Prod.fst :=
      List.mem_map_of_mem Prod.fst (alookup_mem hlk)
    have hklru : k ∈ d.tile_lru := (hiff k).mpr hkc
    have hkseen : k ∈ seen := hsub k hkc
    have hins : insert k seen = seen := Finset.insert_eq_self.mpr hkseen
    rw [hins]
    refine ⟨⟨?_, hndk, ?_⟩, hsub, hsize, hfull⟩
    · show (d.tile_lru.erase k ++ [k]).Nodup
      simp only [List.nodup_append, List.nodup_cons, List.nodup_nil]
      refine ⟨hnd.erase k, ⟨by simp, trivial⟩, ?_⟩
      intro x hx
      rw [hnd.mem_erase_iff] at hx
      simp [hx.1]
    · show ∀ x, x ∈ d.tile_lru.erase k ++ [k] ↔ x ∈ d.tile_cache.map Prod.fst
      intro x
      simp only [List.mem_append, List.mem_cons, List.not_mem_nil, or_false]
      constructor
      · rintro (hx | rfl)
        · exact (hiff x).mp (List.mem_of_mem_erase hx)
        · exact hkc
      · intro hx
        by_cases hxk : x = k
        · exact Or.inr hxk
        · exact Or.inl (hnd.mem_erase_iff.mpr ⟨hxk, (hiff x).mpr hx⟩)
  | none =>
    -- miss: load from the store, insert, evict down to capacity
    rw [GetOrLoad_miss_state d k t hlk hst]
    have hknc : k ∉ d.tile_cache.map Prod.fst := alookup_eq_none hlk
    have hknl : k ∉ d.tile_lru := fun hx => hknc ((hiff k).mp hx)
    have hlen0 : d.tile_lru.length = d.tile_cache.length :=
      pairwf_length ⟨hnd, hndk, hiff⟩
    have hwf1 : PairWF ((k, t) :: d.tile_cache) (d.tile_lru ++ [k]) := by
      refine ⟨?_, ?_, ?_⟩
      · simp only [List.nodup_append, List.nodup_cons, List.nodup_nil]
        exact ⟨hnd, ⟨by simp, trivial⟩, fun x hx => by
          simp only [List.mem_cons, List.not_mem_nil, or_false]
          intro he
          exact hknl (he ▸ hx)⟩
      · rw [List.map_cons, List.nodup_cons]
        exact ⟨hknc, hndk⟩
      · intro x
        have hx1 := hiff x
        simp only [List.mem_append, List.mem_cons, List.not_mem_nil, List.map_cons]
        tauto
    have hfuel : ((k, t) :: d.tile_cache).length ≤
        d.cache_size + (d.tile_lru ++ [k]).length := by
      simp only [List.length_cons, List.length_append, List.length_singleton]
      omega
    obtain ⟨hwf2, hsize2, hid2⟩ := evictFuel_spec d.cache_size _ _ _ hwf1 hfuel
    refine ⟨hwf2, ?_, ?_, ?_⟩
    · -- every surviving key was requested
      intro x hx
      rcases List.mem_map.mp hx with ⟨p, hp, rfl⟩
      have hp1 := evictFuel_subset _ _ _ _ _ hp
      rcases List.mem_cons.mp hp1 with rfl | hp2
      · exact Finset.mem_insert_self _ _
      · exact Finset.mem_insert_of_mem (hsub p.1 (List.mem_map_of_mem Prod.fst hp2))
    · -- exact size accounting
      show (evictFuel d.cache_size (d.tile_lru ++ [k]).length
        ((k, t) :: d.tile_cache) (d.tile_lru ++ [k])).1.length =
          min (insert k seen).card d.cache_size
      simp only [List.length_cons] at hsize2
      rw [hsize2]
      by_cases hlt : d.tile_cache.length < d.cache_size
      · -- below capacity: no key was ever evicted, k is genuinely new
        have hkns : k ∉ seen := fun hks => hknc (hfull hlt k hks)
        rw [Finset.card_insert_of_not_mem hkns]
        omega
      · -- at capacity: size stays pinned at the capacity
        have hseen : d.cache_size ≤ seen.card := by omega
        have hseen2 : d.cache_size ≤ (insert k seen).card :=
          le_trans hseen (Finset.card_le_card (Finset.subset_insert k seen))
        omega
    · -- still below capacity afterwards: nothing was evicted
      show (evictFuel d.cache_size (d.tile_lru ++ [k]).length
        ((k, t) :: d.tile_cache) (d.tile_lru ++ [k])).1.length < d.cache_size →
          ∀ x ∈ insert k seen,
            x ∈ (evictFuel d.cache_size (d.tile_lru ++ [k]).length
              ((k, t) :: d.tile_cache) (d.tile_lru ++ [k])).1.map Prod.fst
      intro hlt x hx
      have hle1 : ((k, t) :: d.tile_cache).length ≤ d.cache_size := by
        simp only [List.length_cons] at hsize2 ⊢
        omega
      rw [congrArg Prod.fst (hid2 hle1)]
      simp only [List.map_cons, List.mem_cons]
      have hlt0 : d.tile_cache.length < d.cache_size := by
        simp only [List.length_cons] at hle1
        omega
      rcases Finset.mem_insert.mp hx with rfl | hxs
      · exact Or.inl rfl
      · exact Or.inr (hfull hlt0 x hxs)

/-- The invariant is preserved along any sequence of scalar lookups whose
tiles all exist in the backing store. -/
theorem runScalars_inv (pts : List (ℚ × ℚ)) :
    ∀ (d : NlcdDriver) (seen : Finset TileId),
      (∀ p ∈ pts, (d.store (tileKey p.1 p.2)).isSome) →
      CacheInv seen d →
      CacheInv (seen ∪ (pts.map (fun p => tileKey p.1 p.2)).toFinset)
        (runScalars d pts).2 := by
  induction pts with
  | nil =>
    intro d seen _ hinv
    simpa using hinv
  | cons p ps ih =>
    intro d seen hex hinv
    rw [runScalars]
    simp only
    obtain ⟨t, ht⟩ := Option.isSome_iff_exists.mp (hex p (List.mem_cons_self p ps))
    have hstep := getOrLoad_inv d (tileKey p.1 p.2) t ht seen hinv
    rw [scalar_snd d p.1 p.2]
    have hex1 : ∀ q ∈ ps,
        (((GetOrLoad d (tileKey p.1 p.2)).2).store (tileKey q.1 q.2)).isSome := by
      intro q hq
      rw [GetOrLoad_store]
      exact hex q (List.mem_cons_of_mem p hq)
    have hres := ih _ _ hex1 hstep
    have hsets : seen ∪ ((p :: ps).map (fun p => tileKey p.1 p.2)).toFinset =
        insert (tileKey p.1 p.2) seen ∪ (ps.map (fun p => tileKey p.1 p.2)).toFinset := by
      simp only [List.map_cons, List.toFinset_cons]
      rw [Finset.union_insert, Finset.insert_union]
    rw [hsets]
    exact hres

/-! ## Random point sampling (src/harness/util.py, getRandomLatLongInPolygon) -/

/-- One attempt outcome of the rejection sampler of util.py: either the
random vertical line at the drawn longitude intersects the polygon and a
candidate point is produced (the drawn lng together with a lat drawn
between the two intercepts), or the intersection computation fails with
NotImplementedError. The random draws and the shapely geometry are
external collaborators, abstracted as an oracle stream. -/
inductive DrawOutcome where
  | intercept (lng lat : ℚ)
  | noIntercept

/-- Result of the embedded sampler: a returned (lat, lng) pair, or
exhaustion of the attempt budget. -/
inductive SampleResult where
  | success (lat lng : ℚ)
  | outOfFuel
deriving DecidableEq

/-- Embedded from src/harness/util.py lines 40 to 63. inPoly is the
shapely Point.within test against the PPA polygon; draws is the stream of
random attempts, one consumed per call. The source retries by calling
itself, both when the candidate point is outside the polygon (line 60) and
when the intersection raises NotImplementedError (line 63), with no retry
bound; the fuel argument makes that recursion total in this embedding,
outOfFuel standing for a recursion that has not returned within the given
number of attempts. -/
def getRandomLatLongInPolygon (inPoly : ℚ → ℚ → Bool) (draws : ℕ → DrawOutcome) :
    ℕ → SampleResult
  | 0 => .outOfFuel
  | fuel + 1 =>
    match draws 0 with
    | .noIntercept => getRandomLatLongInPolygon inPoly (fun i => draws (i + 1)) fuel
    | .intercept lng lat =>
      if inPoly lng lat then .success lat lng
      else getRandomLatLongInPolygon inPoly (fun i => draws (i + 1)) fuel

/-! ## PPA and PAL record consistency (src/harness/util.py, lines 66 to 131) -/

/-- JSON-like values held in the PPA and PAL record dictionaries. -/
inductive JVal where
  | str (s : String)
  | num (n : Int)
  | arr (xs : List JVal)
  | obj (fields : List (String × JVal))

/-- A record dictionary: key-value pairs in insertion order. -/
abbrev Obj := List (String × JVal)

/-- Python dict read. -/
def getKey (o : Obj) (k : String) : Option JVal := alookup o k

/-- Python dict assignment: replace in place when the key exists, append
at the end otherwise. -/
def setKey : Obj → String → JVal → Obj
  | [], k, v => [(k, v)]
  | p :: rest, k, v => if k = p.1 then (k, v) :: rest else p :: setKey rest k v

/-- Python del of a dict key. -/
def delKey (o : Obj) (k : String) : Obj := o.filter (fun p => p.1 ≠ k)

/-- The nested dictionary held at a key, or a fresh empty one: the
defaultdict auto-vivification of the source (a present non-mapping value
would raise in Python and is out of scope of the claims). -/
def innerObj (o : Obj) (k : String) : Obj :=
  match getKey o k with
  | some (.obj f) => f
  | _ => []

/-- Assignment one level deep: rec[k1][k2] = v with auto-vivification. -/
def setKey2 (o : Obj) (k1 k2 : String) (v : JVal) : Obj :=
  setKey o k1 (.obj (setKey (innerObj o k1) k2 v))

/-- Assignment two levels deep: rec[k1][k2][k3] = v with
auto-vivification. -/
def setKey3 (o : Obj) (k1 k2 k3 : String) (v : JVal) : Obj :=
  let f1 := innerObj o k1
  setKey o k1 (.obj (setKey f1 k2 (.obj (setKey (innerObj f1 k2) k3 v))))

/-- Read one level deep: rec[k1][k2]. -/
def getKey2 (o : Obj) (k1 k2 : String) : Option JVal := getKey (innerObj o k1) k2

/-- The str() conversion of the values appearing in the source formatting
(numbers and strings). -/
def jvalToStr : JVal → String
  | .str s => s
  | .num n => toString n
  | .arr _ => ""
  | .obj _ => ""

/-- The two-digit month formatting of the source. -/
def pad2 (n : ℕ) : String := if n < 10 then "0" ++ toString n else toString n

/-- The palId string built at util.py lines 96 to 99: the slash join of
pal, month-year of the previous-year date, the FIPS code and the FCC
channel id. -/
def palIdString (nowMonth : ℕ) (nowYear : ℤ) (fips : JVal) (fcc : String) : String :=
  String.intercalate "/"
    ["pal", pad2 nowMonth ++ "-" ++ toString (nowYear - 1), jvalToStr fips, fcc]

/-- Embedded from src/harness/util.py lines 89 to 116: the per-record body
of the loop of makePpaAndPalRecordsConsistent. The wall clock (month and
year of datetime.now) and the two formatted date strings are external
inputs passed explicitly; the json dump-load round trip of line 116 is the
identity on this model. A record missing fipsCode or censusYear raises
KeyError in the source, modelled by the none outcome. -/
def makePalRecordConsistent (palRec : Obj) (lowF highF : Int)
    (userId fccChannelId : String) (nowMonth : ℕ) (nowYear : ℤ)
    (prevDateStr nextDateStr : String) : Option Obj :=
  match getKey palRec "fipsCode", getKey palRec "censusYear" with
  | some fips, some census =>
    let r := delKey (delKey palRec "fipsCode") "censusYear"
    let r := setKey r "palId" (.str (palIdString nowMonth nowYear fips fccChannelId))
    let r := setKey r "userId" (.str userId)
    let r := setKey2 r "registrationInformation" "registrationDate" (.str prevDateStr)
    let r := setKey2 r "license" "licenseAreaIdentifier" (.str (jvalToStr fips))
    let r := setKey2 r "license" "licenseAreaExtent"
      (.str ("zone/census_tract/census/" ++ jvalToStr census ++ "/" ++ jvalToStr fips))
    let r := setKey2 r "license" "licenseDate" (.str prevDateStr)
    let r := setKey2 r "license" "licenseExpiration" (.str nextDateStr)
    let r := setKey2 r "license" "licenseFrequencyChannelId" (.str fccChannelId)
    let r := setKey3 r "channelAssignment" "primaryAssignment" "lowFrequency" (.num lowF)
    let r := setKey3 r "channelAssignment" "primaryAssignment" "highFrequency" (.num highF)
    some r
  | _, _ => none

/-- The loop of util.py lines 89 to 116 over the pal record list: each
record is rewritten in place; a failing record aborts the call. -/
def processPals (f : Obj → Option Obj) : List Obj → Option (List Obj)
  | [] => some []
  | r :: rest =>
    match f r with
    | none => none
    | some r1 =>
      match processPals f rest with
      | none => none
      | some rs => some (r1 :: rs)

/-- The palId list comprehension of util.py line 121: pal[palId] for every
rewritten pal record; a record without palId raises KeyError. -/
def collectPalIds : List Obj → Option (List JVal)
  | [] => some []
  | r :: rest =>
    match getKey r "palId" with
    | none => none
    | some v =>
      match collectPalIds rest with
      | none => none
      | some vs => some (v :: vs)

/-- Embedded from src/harness/util.py lines 66 to 131,
makePpaAndPalRecordsConsistent. The uuid hex of line 124 is an external
input passed explicitly. An empty pal record list raises IndexError at
line 123 (palId[0] on an empty list), modelled by the none outcome; a
missing creator key is auto-vivified by the defaultdict wrap of line
119. -/
def makePpaAndPalRecordsConsistent (ppaRec : Obj) (palRecords : List Obj)
    (lowF highF : Int) (userId fccChannelId uuidHex : String)
    (nowMonth : ℕ) (nowYear : ℤ) (prevDateStr nextDateStr : String) :
    Option (Obj × List Obj) :=
  match processPals (fun r => makePalRecordConsistent r lowF highF userId
      fccChannelId nowMonth nowYear prevDateStr nextDateStr) palRecords with
  | none => none
  | some pals =>
    match collectPalIds pals with
    | none => none
    | some palIds =>
      let ppa1 := setKey2 ppaRec "ppaInfo" "palId" (.arr palIds)
      match palIds with
      | [] => none
      | firstId :: _ =>
        let creator := (getKey ppa1 "creator").getD (.obj [])
        let ppa2 := setKey ppa1 "id"
          (.str ("zone/ppa/" ++ jvalToStr creator ++ "/" ++ jvalToStr firstId ++
            "/" ++ uuidHex))
        let ppa3 := setKey2 ppa2 "ppaInfo" "ppaBeginDate" (.str prevDateStr)
        let ppa4 := setKey2 ppa3 "ppaInfo" "ppaExpirationDate" (.str nextDateStr)
        some (ppa4, pals)

/-! ## Dictionary lemmas -/

theorem getKey_setKey_self (o : Obj) (k : String) (v : JVal) :
    getKey (setKey o k v) k = some v := by
  induction o with
  | nil => simp [getKey, setKey, alookup]
  | cons p rest ih =>
    rw [setKey]
    split
    · next he => simp [getKey, alookup]
    · next he =>
      simp only [getKey, alookup]
      rw [if_neg he]
      exact ih

theorem getKey_setKey_ne {o : Obj} {k k' : String} {v : JVal} (h : k' ≠ k) :
    getKey (setKey o k v) k' = getKey o k' := by
  induction o with
  | nil =>
    simp only [getKey, setKey, alookup]
    rw [if_neg h]
  | cons p rest ih =>
    rw [setKey]
    split
    · next he =>
      simp only [getKey, alookup]
      rw [if_neg h, if_neg (fun hh => h (hh.trans he.symm))]
    · next he =>
      simp only [getKey, alookup]
      by_cases hk : k' = p.1
      · rw [if_pos hk, if_pos hk]
      · rw [if_neg hk, if_neg hk]
        exact ih

theorem getKey_delKey_self (o : Obj) (k : String) :
    getKey (delKey o k) k = none := by
  induction o with
  | nil => rfl
  | cons p rest ih =>
    rw [delKey, List.filter_cons]
    by_cases h : p.1 = k
    · rw [if_neg (by simp [h])]
      exact ih
    · rw [if_pos (by simp [h])]
      simp only [getKey, alookup]
      rw [if_neg (fun hh => h hh.symm)]
      exact ih

theorem getKey_delKey_ne {o : Obj} {k k' : String} (h : k' ≠ k) :
    getKey (delKey o k) k' = getKey o k' := by
  induction o with
  | nil => rfl
  | cons p rest ih =>
    rw [delKey, List.filter_cons]
    by_cases hp : p.1 = k
    · rw [if_neg (by simp [hp])]
      simp only [getKey, alookup]
      rw [if_neg (fun hh => h (hh.trans hp))]
      exact ih
    · rw [if_pos (by simp [hp])]
      simp only [getKey, alookup]
      by_cases hk : k' = p.1
      · rw [if_pos hk, if_pos hk]
      · rw [if_neg hk, if_neg hk]
        exact ih

theorem getKey_setKey2_ne {o : Obj} {k1 k2 k' : String} {v : JVal} (h : k' ≠ k1) :
    getKey (setKey2 o k1 k2 v) k' = getKey o k' :=
  getKey_setKey_ne h

theorem getKey_setKey3_ne {o : Obj} {k1 k2 k3 k' : String} {v : JVal} (h : k' ≠ k1) :
    getKey (setKey3 o k1 k2 k3 v) k' = getKey o k' :=
  getKey_setKey_ne h

theorem innerObj_setKey_self (o : Obj) (k : String) (f : Obj) :
    innerObj (setKey o k (.obj f)) k = f := by
  rw [innerObj, getKey_setKey_self]

theorem getKey2_setKey2_self (o : Obj) (k1 k2 : String) (v : JVal) :
    getKey2 (setKey2 o k1 k2 v) k1 k2 = some v := by
  rw [getKey2, setKey2, innerObj_setKey_self, getKey_setKey_self]

theorem getKey2_setKey2_ne_inner {o : Obj} {k1 k2 k2' : String} {v : JVal}
    (h : k2' ≠ k2) :
    getKey2 (setKey2 o k1 k2 v) k1 k2' = getKey2 o k1 k2' := by
  rw [getKey2, setKey2, innerObj_setKey_self, getKey_setKey_ne h, getKey2]

theorem getKey2_setKey_ne_outer {o : Obj} {k k1 k2 : String} {v : JVal}
    (h : k1 ≠ k) :
    getKey2 (setKey o k v) k1 k2 = getKey2 o k1 k2 := by
  rw [getKey2, getKey2, innerObj, innerObj, getKey_setKey_ne h]

/-! ## Loop lemmas for the record consistency helper -/

theorem processPals_length (f : Obj → Option Obj) :
    ∀ (l : List Obj) (out : List Obj), processPals f l = some out →
      out.length = l.length := by
  intro l
  induction l with
  | nil =>
    intro out h
    rw [processPals] at h
    injection h with h1
    rw [← h1]
  | cons r rest ih =>
    intro out h
    rw [processPals] at h
    cases hf : f r with
    | none => rw [hf] at h; exact Option.noConfusion h
    | some r1 =>
      rw [hf] at h
      cases hp : processPals f rest with
      | none => rw [hp] at h; exact Option.noConfusion h
      | some rs =>
        rw [hp] at h
        injection h with h1
        rw [← h1, List.length_cons, List.length_cons, ih rs hp]

theorem processPals_mem (f : Obj → Option Obj) (P : Obj → Prop)
    (hf : ∀ r out, f r = some out → P out) :
    ∀ (l : List Obj) (out : List Obj), processPals f l = some out →
      ∀ o ∈ out, P o := by
  intro l
  induction l with
  | nil =>
    intro out h o ho
    rw [processPals] at h
    injection h with h1
    rw [← h1] at ho
    exact absurd ho (List.not_mem_nil o)
  | cons r rest ih =>
    intro out h o ho
    rw [processPals] at h
    cases hfr : f r with
    | none => rw [hfr] at h; exact Option.noConfusion h
    | some r1 =>
      rw [hfr] at h
      cases hp : processPals f rest with
      | none => rw [hp] at h; exact Option.noConfusion h
      | some rs =>
        rw [hp] at h
        injection h with h1
        rw [← h1] at ho
        rcases List.mem_cons.mp ho with rfl | ho1
        · exact hf r o hfr
        · exact ih rs hp o ho1

theorem collectPalIds_spec :
    ∀ (l : List Obj) (ids : List JVal), collectPalIds l = some ids →
      l.map (fun r => getKey r "palId") = ids.map some := by
  intro l
  induction l with
  | nil =>
    intro ids h
    rw [collectPalIds] at h
    injection h with h1
    rw [← h1]
    rfl
  | cons r rest ih =>
    intro ids h
    rw [collectPalIds] at h
    cases hg : getKey r "palId" with
    | none => rw [hg] at h; exact Option.noConfusion h
    | some v =>
      rw [hg] at h
      cases hc : collectPalIds rest with
      | none => rw [hc] at h; exact Option.noConfusion h
      | some vs =>
        rw [hc] at h
        injection h with h1
        rw [← h1, List.map_cons, List.map_cons, hg, ih vs hc]

/-- The per-record rewrite removes fipsCode and censusYear for good: no
later assignment touches those keys. -/
theorem makePal_removes_keys (palRec : Obj) (lowF highF : Int)
    (userId fcc : String) (nowMonth : ℕ) (nowYear : ℤ)
    (prevDateStr nextDateStr : String) (r : Obj)
    (h : makePalRecordConsistent palRec lowF highF userId fcc nowMonth nowYear
      prevDateStr nextDateStr = some r) :
    getKey r "fipsCode" = none ∧ getKey r "censusYear" = none := by
  rw [makePalRecordConsistent] at h
  cases hf : getKey palRec "fipsCode" with
  | none => rw [hf] at h; simp at h
  | some fips =>
    rw [hf] at h
    cases hc : getKey palRec "censusYear" with
    | none => rw [hc] at h; simp at h
    | some census =>
      rw [hc] at h
      simp only at h
      injection h with h1
      rw [← h1]
      constructor
      · rw [getKey_setKey3_ne (by decide), getKey_setKey3_ne (by decide),
          getKey_setKey2_ne (by decide), getKey_setKey2_ne (by decide),
          getKey_setKey2_ne (by decide), getKey_setKey2_ne (by decide),
          getKey_setKey2_ne (by decide), getKey_setKey2_ne (by decide),
          getKey_setKey_ne (by decide), getKey_setKey_ne (by decide),
          getKey_delKey_ne (by decide), getKey_delKey_self]
      · rw [getKey_setKey3_ne (by decide), getKey_setKey3_ne (by decide),
          getKey_setKey2_ne (by decide), getKey_setKey2_ne (by decide),
          getKey_setKey2_ne (by decide), getKey_setKey2_ne (by decide),
          getKey_setKey2_ne (by decide), getKey_setKey2_ne (by decide),
          getKey_setKey_ne (by decide), getKey_setKey_ne (by decide),
          getKey_delKey_self]

/-! ## Concrete fixtures used by the witnesses -/

/-- A tile all of whose pixels carry the highest-intensity developed code. -/
def wTileUrban : Tile := ⟨38, -123, 1, 10, 10, fun _ _ => 24⟩

/-- A tile all of whose pixels carry the mid-intensity developed code. -/
def wTileSuburban : Tile := ⟨38, -124, 1, 10, 10, fun _ _ => 22⟩

/-- A backing store with exactly two available tiles. -/
def wStore : TileId → Option Tile := fun k =>
  if k = ((38 : ℤ), (123 : ℤ)) then some wTileUrban
  else if k = ((38 : ℤ), (124 : ℤ)) then some wTileSuburban
  else none

/-- A point in the cell of the urban tile. -/
def wP1 : ℚ × ℚ := (mkRat 375 10, mkRat (-1225) 10)

/-- A point in the cell of the suburban tile. -/
def wP2 : ℚ × ℚ := (mkRat 375 10, mkRat (-1235) 10)

/-- A point in a cell no tile covers. -/
def wP3 : ℚ × ℚ := (mkRat 375 10, mkRat (-1219999) 10000)

/-- A fresh driver over the two-tile store with capacity 2. -/
def wD : NlcdDriver := NlcdDriver.init wStore 2

/-- A pal record carrying the two keys the consistency helper consumes. -/
def wPal : Obj := [("fipsCode", .num 1), ("censusYear", .num 2)]

/-- A minimal ppa record. -/
def wPpaIn : Obj := [("creator", .str "u")]

/-- The rewritten pal record produced by the consistency helper on wPal
with lowFrequency 0, highFrequency 0, userId u1, channel id 1, month 3 of
year 2020 and date strings P and N. -/
def wPalOut : Obj :=
  [("palId", .str "pal/03-2019/1/1"),
   ("userId", .str "u1"),
   ("registrationInformation", .obj [("registrationDate", .str "P")]),
   ("license", .obj
     [("licenseAreaIdentifier", .str "1"),
      ("licenseAreaExtent", .str "zone/census_tract/census/2/1"),
      ("licenseDate", .str "P"),
      ("licenseExpiration", .str "N"),
      ("licenseFrequencyChannelId", .str "1")]),
   ("channelAssignment", .obj
     [("primaryAssignment", .obj
       [("lowFrequency", .num 0), ("highFrequency", .num 0)])])]

/-- The rewritten ppa record produced on the same input, uuid hex x. -/
def wPpaOut : Obj :=
  [("creator", .str "u"),
   ("ppaInfo", .obj
     [("palId", .arr [.str "pal/03-2019/1/1"]),
      ("ppaBeginDate", .str "P"),
      ("ppaExpirationDate", .str "N")]),
   ("id", .str "zone/ppa/u/pal/03-2019/1/1/x")]

/-! ## Claims -/

/-- Claim C1: GetRegionType is a total, deterministic, stateless function
of the integer land-cover code: being a pure Lean function it is total over
all codes (the no-data sentinel 0 included) and the same code always yields
the same category; code 24 maps to URBAN, code 22 to SUBURBAN, and every
other code (21, open water 11 and 0 included) to RURAL. -/
theorem C1_GetRegionType_total_mapping (code : ℕ) :
    GetRegionType 24 = .URBAN ∧ GetRegionType 22 = .SUBURBAN ∧
    (code ≠ 24 → code ≠ 22 → GetRegionType code = .RURAL) := by
  refine ⟨rfl, rfl, ?_⟩
  intro h24 h22
  simp [GetRegionType, h24, h22]

theorem C1_GetRegionType_total_mapping_witness :
    GetRegionType 24 = .URBAN ∧ GetRegionType 22 = .SUBURBAN ∧
    GetRegionType 21 = .RURAL :=
  ⟨(C1_GetRegionType_total_mapping 21).1,
   (C1_GetRegionType_total_mapping 21).2.1,
   (C1_GetRegionType_total_mapping 21).2.2 (by decide) (by decide)⟩

/-- Claim C2: for every non-empty point list given to RegionNlcdVote in
which two or more categories are tied for the plurality of per-point
categories, the result is the most protection-stringent of the tied
categories: the vote outcome itself realises the maximal count, and every
category realising the maximal count has stringency at most that of the
outcome. The two-point urban-plus-suburban instance resolving to URBAN is
exercised by the witness. -/
theorem C2_vote_tie_break (d : NlcdDriver) (pts : List (ℚ × ℚ))
    (hne : pts ≠ []) (c1 c2 : RegionCategory) (h12 : c1 ≠ c2)
    (h1 : ∀ c, (perPointCategories d pts).count c ≤ (perPointCategories d pts).count c1)
    (h2 : ∀ c, (perPointCategories d pts).count c ≤ (perPointCategories d pts).count c2) :
    ∃ c, (RegionNlcdVote d pts).1 = some c ∧
      (∀ c', (perPointCategories d pts).count c' ≤ (perPointCategories d pts).count c) ∧
      ∀ c', (∀ c'', (perPointCategories d pts).count c'' ≤ (perPointCategories d pts).count c') →
        stringency c' ≤ stringency c := by
  refine ⟨voteCategories (perPointCategories d pts), RegionNlcdVote_ne_nil d hne, ?_, ?_⟩
  · exact vote_count_max _
  · intro c' hmax'
    exact vote_stringency_max _ _ hmax'

theorem C2_vote_tie_break_witness :
    ([wP1, wP2] ≠ ([] : List (ℚ × ℚ))) ∧
    (RegionCategory.URBAN ≠ RegionCategory.SUBURBAN) ∧
    (∀ c, (perPointCategories wD [wP1, wP2]).count c ≤
        (perPointCategories wD [wP1, wP2]).count RegionCategory.URBAN) ∧
    (∀ c, (perPointCategories wD [wP1, wP2]).count c ≤
        (perPointCategories wD [wP1, wP2]).count RegionCategory.SUBURBAN) ∧
    (RegionNlcdVote wD [wP1, wP2]).1 = some RegionCategory.URBAN ∧
    (∃ c, (RegionNlcdVote wD [wP1, wP2]).1 = some c ∧
      (∀ c', (perPointCategories wD [wP1, wP2]).count c' ≤
          (perPointCategories wD [wP1, wP2]).count c) ∧
      ∀ c', (∀ c'', (perPointCategories wD [wP1, wP2]).count c'' ≤
          (perPointCategories wD [wP1, wP2]).count c') →
        stringency c' ≤ stringency c) :=
  ⟨by simp, by decide, by decide, by decide, by decide,
   C2_vote_tie_break wD [wP1, wP2] (by simp) .URBAN .SUBURBAN
     (by decide) (by decide) (by decide)⟩

/-- Claim C6: for every single-element point list, RegionNlcdVote returns
exactly the category of the point itself, i.e. GetRegionType applied to the
code obtained for the point through GetLandCoverCodes. -/
theorem C6_single_point_vote (d : NlcdDriver) (p : ℚ × ℚ) :
    (RegionNlcdVote d [p]).1 =
      some (GetRegionType (GetLandCoverCodesScalar d p.1 p.2).1) := by
  have h : (RegionNlcdVote d [p]).1 =
      some (voteCategories (perPointCategories d [p])) :=
    RegionNlcdVote_ne_nil d (by simp)
  rw [h]
  show some (voteCategories [GetRegionType (GetLandCoverCodesScalar d p.1 p.2).1]) = _
  rw [vote_singleton]

/-- Claim C7: for every non-empty point list and every permutation of it,
RegionNlcdVote returns the same category: under the cache-faithfulness
invariant the result depends only on the multiset of per-point categories. -/
theorem C7_vote_permutation_invariant (d : NlcdDriver) (hf : CacheFaithful d)
    (pts pts' : List (ℚ × ℚ)) (hne : pts ≠ []) (hperm : pts.Perm pts') :
    (RegionNlcdVote d pts).1 = (RegionNlcdVote d pts').1 := by
  have hne' : pts' ≠ [] := by
    intro h
    exact hne (List.eq_nil_of_length_eq_zero (hperm.length_eq.trans (by simp [h])))
  rw [RegionNlcdVote_ne_nil d hne, RegionNlcdVote_ne_nil d hne']
  have hcats : ∀ c, (perPointCategories d pts).count c = (perPointCategories d pts').count c := by
    intro c
    have h1 : perPointCategories d pts =
        pts.map (fun p => GetRegionType (pureCode d.store p.1 p.2)) := by
      rw [perPointCategories, runScalars_fst pts d hf, List.map_map]
      rfl
    have h2 : perPointCategories d pts' =
        pts'.map (fun p => GetRegionType (pureCode d.store p.1 p.2)) := by
      rw [perPointCategories, runScalars_fst pts' d hf, List.map_map]
      rfl
    rw [h1, h2]
    exact (hperm.map _).count_eq c
  rw [show voteCategories (perPointCategories d pts) =
      voteCategories (perPointCategories d pts') by
    rw [voteCategories, voteCategories, hcats .URBAN, hcats .SUBURBAN, hcats .RURAL]]

/-- Claim C3: for every coordinate batch, the batched GetLandCoverCodes
returns exactly the sequence obtained by calling the scalar form once per
coordinate and collecting results in order, whatever tiles happen to be
cached beforehand (any driver state satisfying the faithfulness
invariant). -/
theorem C3_batch_eq_scalar_sequence (d : NlcdDriver) (pts : List (ℚ × ℚ))
    (hf : CacheFaithful d) :
    (GetLandCoverCodes d pts).1 = (runScalars d pts).1 := by
  rw [runScalars_fst pts d hf, GetLandCoverCodes]
  simp only
  apply List.map_congr_left
  intro p hp
  have hmem : tileKey p.1 p.2 ∈ (pts.map (fun p => tileKey p.1 p.2)).dedup :=
    List.mem_dedup.mpr (List.mem_map_of_mem _ hp)
  rw [loadAll_fst _ _ hf, alookup_map_self hmem, pureCode]
  cases d.store (tileKey p.1 p.2) with
  | none => rfl
  | some t => rfl

theorem C3_batch_eq_scalar_sequence_witness :
    CacheFaithful wD ∧
    (GetLandCoverCodes wD [wP1, wP2, wP3, wP1]).1 =
      (runScalars wD [wP1, wP2, wP3, wP1]).1 :=
  ⟨cacheFaithful_init wStore 2,
   C3_batch_eq_scalar_sequence wD [wP1, wP2, wP3, wP1] (cacheFaithful_init wStore 2)⟩

/-- Claim C4: for every capacity of at least one and every lookup sequence
touching at least as many distinct tiles as the capacity, all of which
exist in the backing store, a fresh driver ends up with exactly
cache-capacity many resident tiles in the mapping and in the recency
ordering, and after every prefix of the lookups the set of keys in the
mapping equals the set of keys in the recency ordering. -/
theorem C4_lru_cache_exact_capacity (store : TileId → Option Tile) (cap : ℕ)
    (hcap : 1 ≤ cap) (pts : List (ℚ × ℚ))
    (hex : ∀ p ∈ pts, (store (tileKey p.1 p.2)).isSome)
    (hm : cap ≤ (distinctTileKeys pts).length) :
    ((runScalars (NlcdDriver.init store cap) pts).2.tile_cache.length = cap ∧
     (runScalars (NlcdDriver.init store cap) pts).2.tile_lru.length = cap) ∧
    ∀ n, CacheKeysMatch (runScalars (NlcdDriver.init store cap) (pts.take n)).2 := by
  have hinit := cacheInv_init store cap
  constructor
  · obtain ⟨hwf, _, hsize, _⟩ := runScalars_inv pts (NlcdDriver.init store cap) ∅ hex hinit
    have hcs : (runScalars (NlcdDriver.init store cap) pts).2.cache_size = cap := by
      rw [runScalars_cache_size]
      rfl
    have hcard : (∅ ∪ (pts.map (fun p => tileKey p.1 p.2)).toFinset).card =
        (distinctTileKeys pts).length := by
      rw [Finset.empty_union, List.card_toFinset]
      rfl
    rw [hcs, hcard] at hsize
    have hlen : (runScalars (NlcdDriver.init store cap) pts).2.tile_cache.length = cap := by
      rw [hsize]
      exact min_eq_right hm
    exact ⟨hlen, by rw [pairwf_length hwf]; exact hlen⟩
  · intro n
    have hexn : ∀ p ∈ pts.take n,
        ((NlcdDriver.init store cap).store (tileKey p.1 p.2)).isSome :=
      fun p hp => hex p (List.take_subset n pts hp)
    exact (runScalars_inv (pts.take n) _ ∅ hexn hinit).1

theorem C4_lru_cache_exact_capacity_witness :
    (1 ≤ 1) ∧
    (∀ p ∈ [wP1, wP2], (wStore (tileKey p.1 p.2)).isSome) ∧
    (1 ≤ (distinctTileKeys [wP1, wP2]).length) ∧
    (((runScalars (NlcdDriver.init wStore 1) [wP1, wP2]).2.tile_cache.length = 1 ∧
      (runScalars (NlcdDriver.init wStore 1) [wP1, wP2]).2.tile_lru.length = 1) ∧
     ∀ n, CacheKeysMatch (runScalars (NlcdDriver.init wStore 1) ([wP1, wP2].take n)).2) :=
  ⟨by decide, by decide, by decide,
   C4_lru_cache_exact_capacity wStore 1 (by decide) [wP1, wP2] (by decide) (by decide)⟩

/-- Claim C10: for every input to makePpaAndPalRecordsConsistent in which
each pal record contains the fipsCode and censusYear keys, every pal
record in the returned list contains neither of those keys, and the
returned ppa record field ppaInfo.palId is a list with exactly one entry
per input pal record, equal in order to the palId value of each returned
pal record. -/
theorem C10_ppa_pal_records_consistent (ppaRec : Obj) (palRecords : List Obj)
    (lowF highF : Int) (userId fccChannelId uuidHex : String)
    (nowMonth : ℕ) (nowYear : ℤ) (prevDateStr nextDateStr : String)
    (hkeys : ∀ r ∈ palRecords,
      (getKey r "fipsCode").isSome ∧ (getKey r "censusYear").isSome)
    (ppaOut : Obj) (palsOut : List Obj)
    (hres : makePpaAndPalRecordsConsistent ppaRec palRecords lowF highF userId
      fccChannelId uuidHex nowMonth nowYear prevDateStr nextDateStr =
        some (ppaOut, palsOut)) :
    (∀ r ∈ palsOut, getKey r "fipsCode" = none ∧ getKey r "censusYear" = none) ∧
    palsOut.length = palRecords.length ∧
    ∃ ids, getKey2 ppaOut "ppaInfo" "palId" = some (.arr ids) ∧
      palsOut.map (fun r => getKey r "palId") = ids.map some := by
  rw [makePpaAndPalRecordsConsistent] at hres
  split at hres
  · exact Option.noConfusion hres
  · next pals hp =>
    split at hres
    · exact Option.noConfusion hres
    · next palIds hc =>
      split at hres
      · exact Option.noConfusion hres
      · next firstId restIds =>
        injection hres with h1
        injection h1 with ha hb
        subst ha
        subst hb
        refine ⟨?_, ?_, firstId :: restIds, ?_, ?_⟩
        · exact processPals_mem _ _
            (fun r out hout => makePal_removes_keys r lowF highF userId
              fccChannelId nowMonth nowYear prevDateStr nextDateStr out hout)
            palRecords pals hp
        · exact processPals_length _ palRecords pals hp
        · rw [getKey2_setKey2_ne_inner (by decide), getKey2_setKey2_ne_inner (by decide),
            getKey2_setKey_ne_outer (by decide), getKey2_setKey2_self]
        · exact collectPalIds_spec pals (firstId :: restIds) hc

theorem C10_ppa_pal_records_consistent_witness :
    (∀ r ∈ [wPal], (getKey r "fipsCode").isSome ∧ (getKey r "censusYear").isSome) ∧
    makePpaAndPalRecordsConsistent wPpaIn [wPal] 0 0 "u1" "1" "x" 3 2020 "P" "N"
      = some (wPpaOut, [wPalOut]) ∧
    ((∀ r ∈ [wPalOut], getKey r "fipsCode" = none ∧ getKey r "censusYear" = none) ∧
     [wPalOut].length = [wPal].length ∧
     ∃ ids, getKey2 wPpaOut "ppaInfo" "palId" = some (.arr ids) ∧
       [wPalOut].map (fun r => getKey r "palId") = ids.map some) :=
  ⟨by decide, by rfl,
   C10_ppa_pal_records_consistent wPpaIn [wPal] 0 0 "u1" "1" "x" 3 2020 "P" "N"
     (by decide) wPpaOut [wPalOut] (by rfl)⟩

/-- Claim C5: a coordinate falling in a one-degree cell for which the
backing store has no tile yields the sentinel code 0, the lookup neither
raises nor aborts (the function is total), the absence is not cached, and
the whole driver state is unchanged. -/
theorem C5_missing_tile_sentinel (d : NlcdDriver) (lat lon : ℚ)
    (hf : CacheFaithful d) (hnone : d.store (tileKey lat lon) = none) :
    GetLandCoverCodesScalar d lat lon = (0, d) := by
  rw [GetLandCoverCodesScalar, GetOrLoad]
  cases hlk : alookup d.tile_cache (tileKey lat lon) with
  | some t =>
    have h := hf _ t (alookup_mem hlk)
    rw [hnone] at h
    exact Option.noConfusion h
  | none =>
    rw [hnone]

theorem C5_missing_tile_sentinel_witness :
    CacheFaithful wD ∧ wD.store (tileKey wP3.1 wP3.2) = none ∧
    GetLandCoverCodesScalar wD wP3.1 wP3.2 = (0, wD) :=
  ⟨cacheFaithful_init wStore 2, by rfl,
   C5_missing_tile_sentinel wD wP3.1 wP3.2 (cacheFaithful_init wStore 2) (by rfl)⟩

/-- An accepting polygon test and a draw stream that immediately yields an
interior point. -/
def wInPoly : ℚ → ℚ → Bool := fun _ _ => true

def wDraws : ℕ → DrawOutcome := fun _ => .intercept 1 2

/-- A draw stream on which every attempt takes the NotImplementedError
retry branch: the degenerate-geometry input. -/
def wDrawsReject : ℕ → DrawOutcome := fun _ => .noIntercept

/-- Claim C8 (code bug): contrary to the claim, the sampler of util.py has
no bounded retry loop, no maximum retry count and no failure outcome: it
retries by self-recursion at lines 60 and 63. On an input whose attempts
never produce an interior point, for instance a degenerate polygon whose
intersection raises NotImplementedError on every attempt, no finite
attempt budget ever returns: every fuel value is exhausted, which is the
fuel embedding of a non-terminating recursion. -/
theorem C8_sampler_unbounded_recursion (fuel : ℕ) :
    getRandomLatLongInPolygon wInPoly wDrawsReject fuel = .outOfFuel := by
  induction fuel with
  | zero => rfl
  | succ n ih => exact ih

/-- Claim C9: whenever the sampler returns a pair (lat, lng), the point
(lng, lat) lies within the PPA polygon: the success branch is guarded by
the Point.within test at line 57 of util.py. -/
theorem C9_sampler_returns_interior_point (inPoly : ℚ → ℚ → Bool)
    (draws : ℕ → DrawOutcome) (fuel : ℕ) (lat lng : ℚ)
    (h : getRandomLatLongInPolygon inPoly draws fuel = .success lat lng) :
    inPoly lng lat = true := by
  induction fuel generalizing draws with
  | zero => exact absurd h (by intro hh; cases hh)
  | succ n ih =>
    rw [getRandomLatLongInPolygon] at h
    cases hd : draws 0 with
    | noIntercept =>
      rw [hd] at h
      exact ih _ h
    | intercept lng0 lat0 =>
      rw [hd] at h
      have h2 : (if inPoly lng0 lat0 then SampleResult.success lat0 lng0
          else getRandomLatLongInPolygon inPoly (fun i => draws (i + 1)) n) =
          SampleResult.success lat lng := h
      by_cases hp : inPoly lng0 lat0
      · rw [if_pos hp] at h2
        injection h2 with ha hb
        subst ha; subst hb
        exact hp
      · rw [if_neg hp] at h2
        exact ih _ h2

theorem C9_sampler_returns_interior_point_witness :
    getRandomLatLongInPolygon wInPoly wDraws 1 = .success 2 1 ∧ wInPoly 1 2 = true :=
  ⟨by decide, C9_sampler_returns_interior_point wInPoly wDraws 1 2 1 (by decide)⟩

theorem C7_vote_permutation_invariant_witness :
    CacheFaithful wD ∧ ([wP1, wP2] ≠ ([] : List (ℚ × ℚ))) ∧
    List.Perm [wP1, wP2] [wP2, wP1] ∧
    (RegionNlcdVote wD [wP1, wP2]).1 = (RegionNlcdVote wD [wP2, wP1]).1 :=
  ⟨cacheFaithful_init wStore 2, by simp, by decide,
   C7_vote_permutation_invariant wD (cacheFaithful_init wStore 2)
     [wP1, wP2] [wP2, wP1] (by simp) (by decide)⟩

end SAS

-- concrete sanity checks mirroring the scenarios of the test suite
example : SAS.voteCategories [.URBAN, .SUBURBAN] = .URBAN := by decide
example : SAS.voteCategories [.URBAN, .SUBURBAN, .RURAL] = .URBAN := by decide
example : SAS.voteCategories [.URBAN, .SUBURBAN, .RURAL, .RURAL] = .RURAL := by decide
example : SAS.voteCategories [.SUBURBAN, .SUBURBAN, .URBAN] = .SUBURBAN := by decide
example : SAS.tileKey (mkRat 375 10) (mkRat (-1225) 10) = (38, 123) := by decide
example : SAS.GetRegionType 24 = .URBAN := by decide
example : SAS.perPointCategories SAS.wD [SAS.wP1, SAS.wP2] = [.URBAN, .SUBURBAN] := by decide
example : (SAS.RegionNlcdVote SAS.wD [SAS.wP1, SAS.wP2]).1 = some .URBAN := by decide
example : (SAS.GetLandCoverCodesScalar SAS.wD SAS.wP3.1 SAS.wP3.2).1 = 0 := by decide

